import Mathlib

/-!
Verification of the retrieval core of the simplified privateGPT pipeline
(`simple_ingest.py` and `simple_privateGPT.py`).

Python strings are modelled as `List Char` (`PyStr`); Python `float` scores,
which here are always exact quotients of small integers, are modelled as `ℚ`.
Python's stable `list.sort(key=..., reverse=True)` is modelled by insertion
sort with the reflexive "greater-or-equal score" relation, which produces the
unique stable descending arrangement.  Python built-ins (`str.split`,
`str.strip`, `str.replace`, `str.lower`, slicing) are translated to
executable Lean functions on `List Char` below.
-/

/-- Model of a Python `str`: a list of characters. -/
abbrev PyStr := List Char

/-- Python `s.lower()` (character-wise lowercasing). -/
def pyLower (s : PyStr) : PyStr := s.map Char.toLower

/-- Python `s.split()` with no argument: split on whitespace runs,
discarding empty pieces. -/
def pySplit (s : PyStr) : List PyStr :=
  (List.splitOnP (fun c => c.isWhitespace) s).filter (fun w => !w.isEmpty)

/-- The set of unique lowercase whitespace-separated words of a string:
`set(s.lower().split())` in `simple_search`. -/
def wordSet (s : PyStr) : Finset PyStr := (pySplit (pyLower s)).toFinset

/-- The ordering used by `results.sort(key=lambda x: x[1], reverse=True)`:
a pair may precede another when its score is at least as large.  Insertion
sort with this relation is exactly the stable descending sort Python uses. -/
def scoreGE (a b : PyStr × ℚ) : Prop := b.2 ≤ a.2

instance : DecidableRel scoreGE := fun a b => inferInstanceAs (Decidable (b.2 ≤ a.2))

/-- Function `simple_search` from `simple_privateGPT.py`: score every chunk by word
overlap with the query, keep the chunks with positive overlap, sort by
descending score (stable) and truncate to `max_results`. -/
def simple_search (query : PyStr) (chunks : List PyStr) (max_results : Nat) :
    List (PyStr × ℚ) :=
  let query_words := wordSet query
  let results := chunks.filterMap (fun chunk =>
    let chunk_words := wordSet chunk
    let overlap := (query_words ∩ chunk_words).card
    if 0 < overlap then
      some (chunk, (overlap : ℚ) / (query_words.card : ℚ))
    else none)
  (List.insertionSort scoreGE results).take max_results

/-- Python `s.strip()` on the left: drop leading whitespace. -/
def ltrimPy (s : PyStr) : PyStr := s.dropWhile Char.isWhitespace

/-- Python `s.strip()` on the right: drop trailing whitespace. -/
def rtrimPy (s : PyStr) : PyStr := (s.reverse.dropWhile Char.isWhitespace).reverse

/-- Python `s.strip()`: drop leading and trailing whitespace. -/
def pyStrip (s : PyStr) : PyStr := rtrimPy (ltrimPy s)

/-- The candidate windows of `chunk_documents`:
`doc[i:i + chunk_size]` for `i in range(0, len(doc), chunk_size)`. -/
def chunkWindows (doc : PyStr) (chunk_size : Nat) : List PyStr :=
  (List.range' 0 ((doc.length + chunk_size - 1) / chunk_size) chunk_size).map
    (fun i => (doc.drop i).take chunk_size)

/-- Function `chunk_documents` from `simple_ingest.py`: slice every document into
non-overlapping `chunk_size`-character windows and keep the windows whose
stripped length exceeds 50 (the original window is kept, not the stripped
text). -/
def chunk_documents (documents : List PyStr) (chunk_size : Nat) : List PyStr :=
  documents.flatMap (fun doc =>
    (chunkWindows doc chunk_size).filter (fun chunk =>
      decide (50 < (pyStrip chunk).length)))

/-- Fuel-driven worker for Python `s.split(sep)` (non-empty `sep`):
scan left to right, cutting at each leftmost non-overlapping occurrence of
`sep`.  The fuel is an upper bound on the length of `s` and only exists to
make the recursion structural; `splitPy` instantiates it correctly. -/
def splitGo (sep : PyStr) : Nat → PyStr → List PyStr
  | _, [] => [[]]
  | 0, s => [s]
  | fuel + 1, c :: rest =>
    if sep <+: (c :: rest) then
      [] :: splitGo sep fuel ((c :: rest).drop sep.length)
    else
      match splitGo sep fuel rest with
      | [] => [[c]]
      | h :: t => (c :: h) :: t

/-- Python `s.split(sep)` for a non-empty separator string. -/
def splitPy (sep s : PyStr) : List PyStr := splitGo sep s.length s

/-- Python `s.replace(old, new)`: replace every leftmost non-overlapping
occurrence of `old` by `new`; for non-empty `old` this agrees with
`new.join(s.split(old))`. -/
def replacePy (old new s : PyStr) : PyStr := List.intercalate new (splitPy old s)

/-- Fuel-driven worker for Python `str(n)` on natural numbers. -/
def natStrGo : Nat → Nat → PyStr
  | 0, _ => []
  | _ + 1, 0 => []
  | fuel + 1, n => natStrGo fuel (n / 10) ++ [Nat.digitChar (n % 10)]

/-- Python `str(n)` for a natural number `n` (decimal digits). -/
def natStr (n : Nat) : PyStr := if n = 0 then ['0'] else natStrGo n n

/-- The chunk marker `"=== CHUNK"` that `load_processed_documents` splits on. -/
def chunkMarker : PyStr := "=== CHUNK".data

/-- The separator line `"=" * 50` used by the persistence format. -/
def sepLine : PyStr := List.replicate 50 '='

/-- Function `save_processed_documents` from `simple_ingest.py` (the pure text it
writes): for each chunk, `"=== CHUNK {i+1} ===\n"`, the chunk itself, and
`"\n\n" + "=" * 50 + "\n\n"`. -/
def save_processed_documents (chunks : List PyStr) : PyStr :=
  chunks.enum.foldl
    (fun acc ic =>
      acc ++ chunkMarker ++ (' ' :: natStr (ic.1 + 1)) ++ " ===\n".data
        ++ ic.2 ++ ('\n' :: '\n' :: sepLine) ++ "\n\n".data)
    []

/-- The loop body of `load_processed_documents` for one part produced by the
split on `"=== CHUNK"`: drop the part's first line (`'\n'.join(lines[1:])`),
strip, delete every `"=" * 50`, strip again, and keep the result when
non-empty. -/
def parsePart (part : PyStr) : Option PyStr :=
  let chunk_content := pyStrip (List.intercalate ['\n'] ((splitPy ['\n'] part).drop 1))
  let chunk_content := pyStrip (replacePy sepLine [] chunk_content)
  if chunk_content ≠ [] then some chunk_content else none

/-- Function `load_processed_documents` from `simple_privateGPT.py` (the pure parse of
the file content): split on `"=== CHUNK"`, skip the part before the first
marker, and parse each remaining part with `parsePart`. -/
def load_processed_documents (content : PyStr) : List PyStr :=
  ((splitPy chunkMarker content).drop 1).filterMap parsePart

/-- Round a rational to the nearest integer, ties to even: the rounding CPython
applies when formatting with two decimal places. -/
def roundHalfEven (q : ℚ) : ℤ :=
  let n := ⌊q⌋
  let f := q - (n : ℚ)
  if f < 1 / 2 then n
  else if 1 / 2 < f then n + 1
  else if n % 2 = 0 then n else n + 1

/-- Model of the Python format specifier `{score:.2f}`: the score rendered
with exactly two decimal places (round half to even). -/
def fmt2 (q : ℚ) : PyStr :=
  let m := roundHalfEven (q * 100)
  let a := m.natAbs
  (if m < 0 then ['-'] else [])
    ++ natStr (a / 100) ++ ('.' :: (if a % 100 < 10 then '0' :: natStr (a % 100) else natStr (a % 100)))

/-- The sentinel returned by `format_context` on an empty result list. -/
def noInfoStr : PyStr := "No relevant information found in the documents.".data

/-- The preamble `format_context` starts a non-empty context with. -/
def contextPreamble : PyStr :=
  "Based on the following information from your documents:\n\n".data

/-- The per-result block `format_context` appends for the `i`-th result
(1-based): a header with rank and two-decimal score, the chunk truncated to
500 characters with a `"..."` suffix when longer, then a blank line. -/
def contextEntry (i : Nat) (cs : PyStr × ℚ) : PyStr :=
  "Document ".data ++ natStr i ++ " (relevance: ".data ++ fmt2 cs.2 ++ "):\n".data
    ++ (if 500 < cs.1.length then cs.1.take 500 ++ "...".data else cs.1)
    ++ "\n\n".data

/-- Function `format_context` from `simple_privateGPT.py`: the fixed sentinel for an
empty result list, otherwise the preamble followed by one block per result,
accumulated in order with 1-based ranks. -/
def format_context (search_results : List (PyStr × ℚ)) : PyStr :=
  if search_results = [] then noInfoStr
  else (search_results.enumFrom 1).foldl
    (fun context ics => context ++ contextEntry ics.1 ics.2) contextPreamble

/-- Total order: any two scored pairs compare under `scoreGE`. -/
instance : IsTotal (PyStr × ℚ) scoreGE := ⟨fun a b => le_total b.2 a.2⟩

/-- Transitivity of the sorting relation `scoreGE`. -/
instance : IsTrans (PyStr × ℚ) scoreGE := ⟨fun _ _ _ h1 h2 => le_trans h2 h1⟩

/-- The text `save_processed_documents` writes for the chunk with 1-based
index `k`, minus the leading `"=== CHUNK"` marker. -/
def savedPart (k : Nat) (c : PyStr) : PyStr :=
  (' ' :: natStr k) ++ " ===\n".data ++ c ++ ('\n' :: '\n' :: sepLine) ++ "\n\n".data

/-- The text `save_processed_documents` writes for the chunks with 1-based
indices `k`, `k + 1`, …; `save_processed_documents chunks` equals
`saveFrom 1 chunks`. -/
def saveFrom (k : Nat) : List PyStr → PyStr
  | [] => []
  | c :: cs => chunkMarker ++ savedPart k c ++ saveFrom (k + 1) cs

/-! ### Generic facts about the embedded Python string primitives -/

theorem splitGo_fuel (sep : PyStr) (hsep : sep ≠ []) :
    ∀ n s f g, s.length ≤ n → s.length ≤ f → s.length ≤ g →
      splitGo sep f s = splitGo sep g s := by
  intro n
  induction n with
  | zero =>
    intro s f g h1 _ _
    have hs : s = [] := by
      cases s with
      | nil => rfl
      | cons c rest => simp at h1
    subst hs
    cases f <;> cases g <;> rfl
  | succ n ih =>
    intro s f g h1 hf hg
    cases s with
    | nil => cases f <;> cases g <;> rfl
    | cons c rest =>
      have hsl : 1 ≤ sep.length := by
        cases sep with
        | nil => exact absurd rfl hsep
        | cons x xs => simp
      cases f with
      | zero => simp at hf
      | succ f' =>
        cases g with
        | zero => simp at hg
        | succ g' =>
          simp only [splitGo]
          by_cases hp : sep <+: (c :: rest)
          · rw [if_pos hp, if_pos hp]
            have hd : ((c :: rest).drop sep.length).length ≤ n := by
              rw [List.length_drop]
              simp only [List.length_cons] at h1 ⊢
              omega
            have hdf : ((c :: rest).drop sep.length).length ≤ f' := by
              rw [List.length_drop]
              simp only [List.length_cons] at hf ⊢
              omega
            have hdg : ((c :: rest).drop sep.length).length ≤ g' := by
              rw [List.length_drop]
              simp only [List.length_cons] at hg ⊢
              omega
            rw [ih _ f' g' hd hdf hdg]
          · rw [if_neg hp, if_neg hp]
            have hr : rest.length ≤ n := by
              simp only [List.length_cons] at h1; omega
            have hrf : rest.length ≤ f' := by
              simp only [List.length_cons] at hf; omega
            have hrg : rest.length ≤ g' := by
              simp only [List.length_cons] at hg; omega
            rw [ih rest f' g' hr hrf hrg]

theorem splitGo_ne_nil (sep : PyStr) : ∀ f s, splitGo sep f s ≠ [] := by
  intro f
  induction f with
  | zero =>
    intro s
    cases s with
    | nil => simp [splitGo]
    | cons c rest => simp [splitGo]
  | succ f ih =>
    intro s
    cases s with
    | nil => simp [splitGo]
    | cons c rest =>
      simp only [splitGo]
      by_cases hp : sep <+: (c :: rest)
      · rw [if_pos hp]; simp
      · rw [if_neg hp]
        cases h : splitGo sep f rest with
        | nil => simp
        | cons a t => simp

theorem splitPy_nil (sep : PyStr) : splitPy sep [] = [[]] := rfl

theorem splitPy_pos (sep s : PyStr) (hsep : sep ≠ []) (hp : sep <+: s) (hs : s ≠ []) :
    splitPy sep s = [] :: splitPy sep (s.drop sep.length) := by
  obtain ⟨c, rest, rfl⟩ : ∃ c rest, s = c :: rest := by
    cases s with
    | nil => exact absurd rfl hs
    | cons c rest => exact ⟨c, rest, rfl⟩
  have hsl : 1 ≤ sep.length := by
    cases sep with
    | nil => exact absurd rfl hsep
    | cons x xs => simp
  show splitGo sep (c :: rest).length (c :: rest) = _
  rw [show (c :: rest).length = rest.length + 1 from by simp, splitGo, if_pos hp]
  congr 1
  exact splitGo_fuel sep hsep ((c :: rest).drop sep.length).length _ _ _ le_rfl
    (by rw [List.length_drop]; simp only [List.length_cons]; omega) le_rfl

theorem splitPy_neg (sep : PyStr) (c : Char) (rest : PyStr)
    (hp : ¬ sep <+: (c :: rest)) :
    ∃ h t, splitPy sep rest = h :: t ∧ splitPy sep (c :: rest) = (c :: h) :: t := by
  obtain ⟨h, t, hht⟩ : ∃ h t, splitPy sep rest = h :: t := by
    cases hs : splitPy sep rest with
    | nil => exact absurd hs (splitGo_ne_nil sep _ _)
    | cons a t => exact ⟨a, t, rfl⟩
  refine ⟨h, t, hht, ?_⟩
  show splitGo sep (c :: rest).length (c :: rest) = _
  rw [show (c :: rest).length = rest.length + 1 from by simp, splitGo, if_neg hp]
  have : splitGo sep rest.length rest = h :: t := hht
  rw [this]

theorem intercalate_single (sep a : PyStr) : List.intercalate sep [a] = a := by
  simp [List.intercalate]

theorem intercalate_cons2 (sep a b : PyStr) (t : List PyStr) :
    List.intercalate sep (a :: b :: t) = a ++ sep ++ List.intercalate sep (b :: t) := by
  simp [List.intercalate, List.intersperse, List.append_assoc]

theorem intercalate_splitPy (sep : PyStr) (hsep : sep ≠ []) :
    ∀ n s, s.length ≤ n → List.intercalate sep (splitPy sep s) = s := by
  intro n
  induction n with
  | zero =>
    intro s h1
    have hs : s = [] := by
      cases s with
      | nil => rfl
      | cons c rest => simp at h1
    subst hs
    rw [splitPy_nil, intercalate_single]
  | succ n ih =>
    intro s h1
    by_cases h0 : s = []
    · subst h0; rw [splitPy_nil, intercalate_single]
    have hsl : 1 ≤ sep.length := by
      cases sep with
      | nil => exact absurd rfl hsep
      | cons x xs => simp
    by_cases hp : sep <+: s
    · rw [splitPy_pos sep s hsep hp h0]
      obtain ⟨h, t, hht⟩ : ∃ h t, splitPy sep (s.drop sep.length) = h :: t := by
        cases hs2 : splitPy sep (s.drop sep.length) with
        | nil => exact absurd hs2 (splitGo_ne_nil sep _ _)
        | cons a t => exact ⟨a, t, rfl⟩
      have hrec : List.intercalate sep (splitPy sep (s.drop sep.length)) = s.drop sep.length := by
        apply ih
        rw [List.length_drop]
        have : 1 ≤ s.length := by
          cases s with
          | nil => exact absurd rfl h0
          | cons c rest => simp
        omega
      rw [hht, intercalate_cons2, ← hht, hrec]
      have := List.prefix_iff_eq_append.mp hp
      simpa using this
    · obtain ⟨c, rest, rfl⟩ : ∃ c rest, s = c :: rest := by
        cases s with
        | nil => exact absurd rfl h0
        | cons c rest => exact ⟨c, rest, rfl⟩
      obtain ⟨h, t, hht, hres⟩ := splitPy_neg sep c rest hp
      have hrec : List.intercalate sep (splitPy sep rest) = rest := by
        apply ih
        simp only [List.length_cons] at h1
        omega
      rw [hres]
      cases t with
      | nil =>
        rw [intercalate_single]
        rw [hht, intercalate_single] at hrec
        rw [hrec]
      | cons t0 t1 =>
        rw [intercalate_cons2]
        rw [hht, intercalate_cons2] at hrec
        simp only [List.cons_append, List.append_assoc] at hrec ⊢
        rw [hrec]

theorem splitPy_no_occurrence (sep : PyStr) :
    ∀ n s, s.length ≤ n → ¬ sep <:+: s → splitPy sep s = [s] := by
  intro n
  induction n with
  | zero =>
    intro s h1 _
    have hs : s = [] := by
      cases s with
      | nil => rfl
      | cons c rest => simp at h1
    subst hs
    exact splitPy_nil sep
  | succ n ih =>
    intro s h1 hni
    cases s with
    | nil => exact splitPy_nil sep
    | cons c rest =>
      have hp : ¬ sep <+: (c :: rest) := fun h => hni h.isInfix
      obtain ⟨h, t, hht, hres⟩ := splitPy_neg sep c rest hp
      have hrest : splitPy sep rest = [rest] := by
        apply ih
        · simp only [List.length_cons] at h1; omega
        · exact fun hr => hni (List.infix_cons hr)
      rw [hrest] at hht
      obtain ⟨rfl, rfl⟩ : h = rest ∧ t = [] := by
        constructor <;> [exact (List.cons.injEq _ _ _ _ ▸ hht).1.symm; exact (List.cons.injEq _ _ _ _ ▸ hht).2.symm]
      exact hres

theorem splitPy_append (sep : PyStr) (hsep : sep ≠ []) :
    ∀ a b : PyStr, (∀ a₂, a₂ ≠ [] → a₂ <:+ a → ¬ sep <+: (a₂ ++ sep ++ b)) →
      splitPy sep (a ++ sep ++ b) = a :: splitPy sep b := by
  intro a
  induction a with
  | nil =>
    intro b _
    simp only [List.nil_append]
    rw [splitPy_pos sep (sep ++ b) hsep (List.prefix_append sep b)
      (by cases sep with
          | nil => exact absurd rfl hsep
          | cons x xs => simp)]
    rw [List.drop_left]
  | cons c a' ih =>
    intro b H
    have hp : ¬ sep <+: ((c :: a') ++ sep ++ b) :=
      H (c :: a') (List.cons_ne_nil c a') (List.suffix_refl _)
    simp only [List.cons_append] at hp ⊢
    obtain ⟨h, t, hht, hres⟩ := splitPy_neg sep c (a' ++ sep ++ b)
      (by simpa only [List.append_assoc] using hp)
    have hrec : splitPy sep (a' ++ sep ++ b) = a' :: splitPy sep b := by
      apply ih
      intro a₂ hne hsuf
      exact H a₂ hne (hsuf.trans (List.suffix_cons c a'))
    simp only [List.append_assoc] at hht hres hrec
    rw [hrec] at hht
    obtain ⟨rfl, rfl⟩ : h = a' ∧ t = splitPy sep b := by
      constructor <;> [exact (List.cons.injEq _ _ _ _ ▸ hht).1.symm; exact (List.cons.injEq _ _ _ _ ▸ hht).2.symm]
    simpa only [List.append_assoc] using hres

theorem prefix_append_cases {m u v : PyStr} (h : m <+: u ++ v) :
    m <+: u ∨ (u <+: m ∧ m.drop u.length <+: v) := by
  rcases le_or_lt m.length u.length with hl | hl
  · exact Or.inl (List.prefix_of_prefix_length_le h (List.prefix_append u v) hl)
  · have hu : u <+: m :=
      List.prefix_of_prefix_length_le (List.prefix_append u v) h (le_of_lt hl)
    refine Or.inr ⟨hu, ?_⟩
    obtain ⟨m', rfl⟩ := hu
    rw [List.drop_left]
    obtain ⟨t, ht⟩ := h
    rw [List.append_assoc] at ht
    exact ⟨t, List.append_cancel_left ht⟩

theorem infix_cons_cases {m : PyStr} {c : Char} {t : PyStr} (h : m <:+: c :: t) :
    m <+: c :: t ∨ m <:+: t := by
  obtain ⟨x, y, hxy⟩ := h
  cases x with
  | nil => exact Or.inl ⟨y, by simpa using hxy⟩
  | cons d x' =>
    right
    have : t = x' ++ m ++ y := by
      have := hxy
      simp only [List.cons_append] at this
      exact ((List.cons.injEq _ _ _ _ ▸ this).2).symm
    exact ⟨x', y, this.symm⟩

theorem infix_append_cases {m : PyStr} : ∀ {a b : PyStr}, m <:+: a ++ b →
    m <:+: a ∨ m <:+: b ∨
      ∃ m₁ m₂, m = m₁ ++ m₂ ∧ m₁ ≠ [] ∧ m₂ ≠ [] ∧ m₁ <:+ a ∧ m₂ <+: b := by
  intro a
  induction a with
  | nil =>
    intro b h
    exact Or.inr (Or.inl (by simpa using h))
  | cons c a' ih =>
    intro b h
    rcases infix_cons_cases (show m <:+: c :: (a' ++ b) by simpa using h) with hpre | hinf
    · rcases prefix_append_cases (show m <+: (c :: a') ++ b by simpa using hpre)
        with h1 | ⟨h2, h3⟩
      · exact Or.inl h1.isInfix
      · obtain ⟨m', rfl⟩ := h2
        rw [List.drop_left] at h3
        by_cases hm2 : m' = []
        · subst hm2
          exact Or.inl (by simp)
        · exact Or.inr (Or.inr ⟨c :: a', m', rfl, List.cons_ne_nil _ _, hm2,
            List.suffix_refl _, h3⟩)
    · rcases ih hinf with h1 | h1 | ⟨m₁, m₂, e, n1, n2, s1, p2⟩
      · exact Or.inl (List.infix_cons h1)
      · exact Or.inr (Or.inl h1)
      · exact Or.inr (Or.inr ⟨m₁, m₂, e, n1, n2,
          s1.trans (List.suffix_cons c a'), p2⟩)

theorem infix_barrier {m a b : PyStr} {ch : Char} (hch : ch ∉ m) (hm : m ≠ [])
    (h : m <:+: a ++ ch :: b) : m <:+: a ∨ m <:+: b := by
  have h' : m <:+: a ++ [ch] ++ b := by simpa [List.append_assoc] using h
  rcases infix_append_cases (by simpa [List.append_assoc] using h' :
      m <:+: a ++ ([ch] ++ b)) with h1 | h1 | ⟨m₁, m₂, hm12, hm1, hm2, hs1, hp2⟩
  · exact Or.inl h1
  · rcases infix_append_cases h1 with h2 | h2 | ⟨m₁, m₂, hm12, hm1, hm2, hs1, hp2⟩
    · rcases List.sublist_singleton.mp h2.sublist with rfl | rfl
      · exact absurd rfl hm
      · exact absurd (List.mem_singleton.mpr rfl) hch
    · exact Or.inr h2
    · exfalso
      rcases List.sublist_singleton.mp hs1.sublist with rfl | rfl
      · exact hm1 rfl
      · exact hch (by rw [hm12]; exact List.mem_append.mpr (Or.inl (List.mem_singleton.mpr rfl)))
  · exfalso
    obtain ⟨d, m₂', rfl⟩ : ∃ d m₂', m₂ = d :: m₂' := by
      cases m₂ with
      | nil => exact absurd rfl hm2
      | cons d t => exact ⟨d, t, rfl⟩
    have hd : d = ch := by
      have := hp2
      simp only [List.singleton_append] at this
      exact (List.cons_prefix_cons.mp this).1
    subst hd
    exact hch (by rw [hm12]; exact List.mem_append.mpr (Or.inr (List.mem_cons_self _ _)))

theorem infix_chars {m s : PyStr} (h : m <:+: s) : ∀ c ∈ m, c ∈ s :=
  fun _ hc => h.sublist.subset hc

theorem dropWhile_append_pos {p : Char → Bool} {x : PyStr} (y : PyStr)
    (h : x.dropWhile p ≠ []) : (x ++ y).dropWhile p = x.dropWhile p ++ y := by
  rw [List.dropWhile_append]
  simp [h]

theorem dropWhile_append_nil {p : Char → Bool} {x : PyStr} (y : PyStr)
    (h : x.dropWhile p = []) : (x ++ y).dropWhile p = y.dropWhile p := by
  rw [List.dropWhile_append]
  simp [h]

theorem dropWhile_idem (p : Char → Bool) :
    ∀ l : PyStr, (l.dropWhile p).dropWhile p = l.dropWhile p := by
  intro l
  induction l with
  | nil => rfl
  | cons c t ih =>
    rw [List.dropWhile_cons]
    by_cases h : p c = true
    · rw [if_pos h]; exact ih
    · rw [if_neg h, List.dropWhile_cons, if_neg h]

theorem dropWhile_fix_of_prefixed {p : Char → Bool} {v u : PyStr}
    (hvu : v <+: u) (hu : u.dropWhile p = u) : v.dropWhile p = v := by
  cases v with
  | nil => rfl
  | cons c t =>
    obtain ⟨u', hcu⟩ := hvu
    have hcu' : u = c :: (t ++ u') := by rw [← hcu]; simp
    rw [hcu', List.dropWhile_cons] at hu
    by_cases h : p c = true
    · exfalso
      rw [if_pos h] at hu
      have hle := (List.dropWhile_suffix (l := t ++ u') p).sublist.length_le
      have := congrArg List.length hu
      simp only [List.length_cons] at this
      omega
    · rw [List.dropWhile_cons, if_neg h]

theorem ltrimPy_append {x : PyStr} (y : PyStr) (h : ltrimPy x ≠ []) :
    ltrimPy (x ++ y) = ltrimPy x ++ y :=
  dropWhile_append_pos y h

theorem ltrimPy_idem (s : PyStr) : ltrimPy (ltrimPy s) = ltrimPy s :=
  dropWhile_idem _ s

theorem rtrimPy_ne_nil_iff {y : PyStr} :
    rtrimPy y ≠ [] ↔ y.reverse.dropWhile Char.isWhitespace ≠ [] := by
  unfold rtrimPy
  rw [not_iff_not, List.reverse_eq_nil_iff]

theorem rtrimPy_append {x y : PyStr} (h : rtrimPy y ≠ []) :
    rtrimPy (x ++ y) = x ++ rtrimPy y := by
  unfold rtrimPy
  rw [List.reverse_append, dropWhile_append_pos _ (rtrimPy_ne_nil_iff.mp h),
    List.reverse_append, List.reverse_reverse]

theorem rtrimPy_append_ws {y : PyStr} (x : PyStr) (h : ∀ c ∈ y, c.isWhitespace) :
    rtrimPy (x ++ y) = rtrimPy x := by
  unfold rtrimPy
  rw [List.reverse_append, dropWhile_append_nil _ ?_]
  rw [List.dropWhile_eq_nil_iff]
  intro c hc
  exact h c (List.mem_reverse.mp hc)

theorem rtrimPy_idem (s : PyStr) : rtrimPy (rtrimPy s) = rtrimPy s := by
  unfold rtrimPy
  rw [List.reverse_reverse, dropWhile_idem]

theorem rtrimPy_isPrefix (s : PyStr) : rtrimPy s <+: s := by
  have h := List.dropWhile_suffix (l := s.reverse) Char.isWhitespace
  have := List.reverse_prefix.mpr h
  rwa [List.reverse_reverse] at this

theorem pyStrip_idem (s : PyStr) : pyStrip (pyStrip s) = pyStrip s := by
  unfold pyStrip
  have h1 : ltrimPy (rtrimPy (ltrimPy s)) = rtrimPy (ltrimPy s) :=
    dropWhile_fix_of_prefixed (rtrimPy_isPrefix (ltrimPy s)) (ltrimPy_idem s)
  rw [h1, rtrimPy_idem]

theorem ltrimPy_fix_append {x : PyStr} (y : PyStr) (h : ltrimPy x ≠ []) :
    ltrimPy (ltrimPy x ++ y) = ltrimPy x ++ y := by
  have h2 : ltrimPy (ltrimPy x) ≠ [] := by rw [ltrimPy_idem]; exact h
  have h3 := ltrimPy_append (x := ltrimPy x) y h2
  rwa [ltrimPy_idem] at h3

theorem natStrGo_digits : ∀ f n, ∀ ch ∈ natStrGo f n, ch.isDigit = true := by
  intro f
  induction f with
  | zero => intro n ch hch; simp [natStrGo] at hch
  | succ f ih =>
    intro n ch hch
    cases n with
    | zero => simp [natStrGo] at hch
    | succ n' =>
      simp only [natStrGo, List.mem_append, List.mem_singleton] at hch
      rcases hch with hch | rfl
      · exact ih _ ch hch
      · have hd : (n' + 1) % 10 < 10 := Nat.mod_lt _ (by omega)
        revert hd
        generalize (n' + 1) % 10 = d
        revert d
        decide

theorem natStr_digits (n : Nat) : ∀ ch ∈ natStr n, ch.isDigit = true := by
  intro ch hch
  unfold natStr at hch
  by_cases h : n = 0
  · rw [if_pos h] at hch
    simp only [List.mem_singleton] at hch
    subst hch; decide
  · rw [if_neg h] at hch
    exact natStrGo_digits n n ch hch

/-- No character of the non-newline part of a saved chunk header is a
newline, the letter `C`, or anything else outside spaces, digits and `=`. -/
theorem header_chars (k : Nat) :
    ∀ ch ∈ (' ' :: natStr k) ++ " ===".data, ch = ' ' ∨ ch.isDigit = true ∨ ch = '=' := by
  intro ch hch
  simp only [List.cons_append, List.mem_cons, List.mem_append] at hch
  rcases hch with rfl | hch | hch
  · exact Or.inl rfl
  · exact Or.inr (Or.inl (natStr_digits k ch hch))
  · have hch' : ch = ' ' ∨ ch = '=' ∨ ch = '=' ∨ ch = '=' ∨ ch ∈ ([] : List Char) := by
      simpa using hch
    rcases hch' with rfl | rfl | rfl | rfl | h5
    · exact Or.inl rfl
    · exact Or.inr (Or.inr rfl)
    · exact Or.inr (Or.inr rfl)
    · exact Or.inr (Or.inr rfl)
    · exact absurd h5 (List.not_mem_nil ch)

theorem header_no_newline (k : Nat) :
    '\n' ∉ (' ' :: natStr k) ++ " ===".data := by
  intro h
  rcases header_chars k '\n' h with h1 | h1 | h1 <;> simp at h1

theorem header_no_C (k : Nat) :
    'C' ∉ (' ' :: natStr k) ++ " ===".data := by
  intro h
  rcases header_chars k 'C' h with h1 | h1 | h1 <;> simp at h1

/-- The chunk marker does not occur inside a saved part when it does not
occur inside the chunk itself. -/
theorem marker_not_infix_savedPart (k : Nat) (c : PyStr)
    (hc : ¬ chunkMarker <:+: c) : ¬ chunkMarker <:+: savedPart k c := by
  intro h
  have hshape : savedPart k c =
      ((' ' :: natStr k) ++ " ===".data) ++
        '\n' :: (c ++ '\n' :: ('\n' :: (sepLine ++ '\n' :: ['\n']))) := by
    unfold savedPart
    simp [List.append_assoc]
  rw [hshape] at h
  have hnl : '\n' ∉ chunkMarker := by decide
  have hne : chunkMarker ≠ [] := by decide
  rcases infix_barrier hnl hne h with h1 | h1
  · have : 'C' ∈ (' ' :: natStr k) ++ " ===".data :=
      infix_chars h1 'C' (by decide)
    exact header_no_C k this
  rcases infix_barrier hnl hne h1 with h2 | h2
  · exact hc h2
  have h2' : chunkMarker <:+: [] ++ '\n' :: (sepLine ++ '\n' :: ['\n']) := by
    simpa using h2
  rcases infix_barrier hnl hne h2' with h3 | h3
  · rw [List.infix_nil] at h3
    exact hne h3
  rcases infix_barrier hnl hne h3 with h4 | h4
  · have : 'C' ∈ sepLine := infix_chars h4 'C' (by decide)
    rw [sepLine, List.mem_replicate] at this
    exact absurd this.2 (by decide)
  · rcases List.sublist_singleton.mp h4.sublist with h5 | h5
    · exact hne h5
    · exact absurd (congrArg List.length h5) (by decide)

/-- If `sep` does not occur inside `a` and `a` ends with a newline that does
not occur in `sep`, then no occurrence of `sep` in `a ++ sep ++ b` starts
strictly inside `a`: the side condition of `splitPy_append`. -/
theorem no_early_occurrence {sep a : PyStr} (b : PyStr)
    (hinf : ¬ sep <:+: a) (hlast : ∀ h : a ≠ [], a.getLast h = '\n')
    (hnl : '\n' ∉ sep) :
    ∀ a₂, a₂ ≠ [] → a₂ <:+ a → ¬ sep <+: (a₂ ++ sep ++ b) := by
  intro a₂ hne hsuf hp
  rw [List.append_assoc] at hp
  rcases prefix_append_cases hp with h1 | ⟨h2, _⟩
  · exact hinf (h1.isInfix.trans hsuf.isInfix)
  · have ha : a ≠ [] := by
      intro h
      rw [h] at hsuf
      exact hne (List.eq_nil_of_length_eq_zero
        (Nat.le_zero.mp (by simpa using hsuf.sublist.length_le)))
    have hlb : a₂.getLast hne = '\n' := by
      obtain ⟨w, rfl⟩ := hsuf
      rw [← hlast ha]
      exact (List.getLast_append' w a₂ hne).symm
    have : '\n' ∈ sep := by
      rw [← hlb]
      exact h2.sublist.subset (List.getLast_mem hne)
    exact hnl this

theorem getLast_append_nn (x : PyStr) :
    ∀ h : x ++ ['\n', '\n'] ≠ [], (x ++ ['\n', '\n']).getLast h = '\n' := by
  intro h
  rw [List.getLast_append' x ['\n', '\n'] (by decide)]
  rfl

theorem savedPart_shape (k : Nat) (c : PyStr) :
    savedPart k c = ((' ' :: natStr k) ++ " ===".data) ++ ['\n'] ++
      (c ++ ('\n' :: '\n' :: sepLine) ++ "\n\n".data) := by
  unfold savedPart
  simp [List.append_assoc]

theorem savedPart_getLast (k : Nat) (c : PyStr) :
    ∀ h : savedPart k c ≠ [], (savedPart k c).getLast h = '\n' := by
  intro h
  unfold savedPart at *
  rw [List.getLast_append' _ "\n\n".data (by decide)]
  rfl

theorem strip_saved_body (c : PyStr) (hc : ltrimPy c ≠ []) :
    pyStrip (c ++ ('\n' :: '\n' :: sepLine) ++ "\n\n".data)
      = ltrimPy c ++ ('\n' :: '\n' :: sepLine) := by
  unfold pyStrip
  rw [show c ++ ('\n' :: '\n' :: sepLine) ++ "\n\n".data
        = c ++ (('\n' :: '\n' :: sepLine) ++ "\n\n".data) from by simp [List.append_assoc]]
  rw [ltrimPy_append _ hc]
  rw [show ltrimPy c ++ (('\n' :: '\n' :: sepLine) ++ "\n\n".data)
        = (ltrimPy c ++ ('\n' :: '\n' :: sepLine)) ++ "\n\n".data from by simp [List.append_assoc]]
  rw [rtrimPy_append_ws _ (by decide)]
  rw [rtrimPy_append (y := '\n' :: '\n' :: sepLine) (by decide)]
  rw [show rtrimPy ('\n' :: '\n' :: sepLine) = '\n' :: '\n' :: sepLine from by decide]

theorem sepLine_not_infix_ltrim (c : PyStr) (h2 : ¬ sepLine <:+: c) :
    ¬ sepLine <:+: (ltrimPy c ++ ['\n', '\n']) := by
  intro h
  have hnl : '\n' ∉ sepLine := by decide
  have hne : sepLine ≠ [] := by decide
  have h' : sepLine <:+: ltrimPy c ++ '\n' :: ['\n'] := by simpa using h
  rcases infix_barrier hnl hne h' with h1 | h1
  · exact h2 (h1.trans (List.dropWhile_suffix _).isInfix)
  · rcases List.sublist_singleton.mp h1.sublist with h5 | h5
    · exact hne h5
    · exact absurd (congrArg List.length h5) (by decide)

theorem replace_strip_tail (c : PyStr) (h2 : ¬ sepLine <:+: c) :
    replacePy sepLine [] (ltrimPy c ++ ('\n' :: '\n' :: sepLine))
      = ltrimPy c ++ ['\n', '\n'] := by
  unfold replacePy
  rw [show ltrimPy c ++ ('\n' :: '\n' :: sepLine)
        = (ltrimPy c ++ ['\n', '\n']) ++ sepLine ++ [] from by simp]
  rw [splitPy_append sepLine (by decide) _ []
    (no_early_occurrence [] (sepLine_not_infix_ltrim c h2) (getLast_append_nn _) (by decide))]
  rw [splitPy_nil, intercalate_cons2, intercalate_single]
  simp

theorem splitPy_savedPart (k : Nat) (c : PyStr) :
    splitPy ['\n'] (savedPart k c) =
      ((' ' :: natStr k) ++ " ===".data) ::
        splitPy ['\n'] (c ++ ('\n' :: '\n' :: sepLine) ++ "\n\n".data) := by
  rw [savedPart_shape]
  apply splitPy_append ['\n'] (by decide)
  intro a₂ hne hsuf hp
  obtain ⟨d, t, rfl⟩ : ∃ d t, a₂ = d :: t := by
    cases a₂ with
    | nil => exact absurd rfl hne
    | cons d t => exact ⟨d, t, rfl⟩
  have hd : '\n' = d := by
    have hp' : ['\n'] <+: d :: (t ++ ['\n'] ++ (c ++ ('\n' :: '\n' :: sepLine) ++ "\n\n".data)) := by
      simpa [List.append_assoc] using hp
    exact (List.cons_prefix_cons.mp hp').1
  have hmem : d ∈ (' ' :: natStr k) ++ " ===".data :=
    hsuf.sublist.subset (List.mem_cons_self d t)
  exact header_no_newline k (hd ▸ hmem)

theorem parse_savedPart (k : Nat) (c : PyStr)
    (h1 : pyStrip c ≠ []) (h2 : ¬ sepLine <:+: c) :
    pyStrip (replacePy sepLine []
      (pyStrip (List.intercalate ['\n'] ((splitPy ['\n'] (savedPart k c)).drop 1))))
      = pyStrip c := by
  have hlc : ltrimPy c ≠ [] := by
    intro h
    apply h1
    unfold pyStrip
    rw [h]
    rfl
  rw [splitPy_savedPart]
  rw [show (((' ' :: natStr k) ++ " ===".data) ::
      splitPy ['\n'] (c ++ ('\n' :: '\n' :: sepLine) ++ "\n\n".data)).drop 1
      = splitPy ['\n'] (c ++ ('\n' :: '\n' :: sepLine) ++ "\n\n".data) from rfl]
  rw [intercalate_splitPy ['\n'] (by decide) _ _ le_rfl]
  rw [strip_saved_body c hlc, replace_strip_tail c h2]
  unfold pyStrip
  rw [ltrimPy_fix_append _ hlc, rtrimPy_append_ws _ (by decide)]

theorem saveFold (cs : List PyStr) : ∀ (k : Nat) (acc : PyStr),
    (List.enumFrom k cs).foldl
      (fun acc ic =>
        acc ++ chunkMarker ++ (' ' :: natStr (ic.1 + 1)) ++ " ===\n".data
          ++ ic.2 ++ ('\n' :: '\n' :: sepLine) ++ "\n\n".data) acc
      = acc ++ saveFrom (k + 1) cs := by
  induction cs with
  | nil => intro k acc; simp [saveFrom]
  | cons c cs ih =>
    intro k acc
    rw [List.enumFrom_cons, List.foldl_cons, ih]
    simp [saveFrom, savedPart, List.append_assoc]

theorem save_eq_saveFrom (chunks : List PyStr) :
    save_processed_documents chunks = saveFrom 1 chunks := by
  unfold save_processed_documents
  rw [show chunks.enum = List.enumFrom 0 chunks from rfl, saveFold]
  simp

theorem saveFrom_shape (k : Nat) (c : PyStr) (cs : List PyStr) :
    saveFrom k (c :: cs) = chunkMarker ++ (savedPart k c ++ saveFrom (k + 1) cs) := by
  simp [saveFrom, List.append_assoc]

theorem splitPy_saveFrom (cs : List PyStr) :
    ∀ k, (∀ c ∈ cs, ¬ chunkMarker <:+: c) →
      splitPy chunkMarker (saveFrom k cs)
        = [] :: (List.enumFrom k cs).map (fun ic => savedPart ic.1 ic.2) := by
  induction cs with
  | nil =>
    intro k _
    show splitPy chunkMarker [] = _
    rw [splitPy_nil]
    simp
  | cons c cs ih =>
    intro k h
    rw [saveFrom_shape]
    rw [splitPy_pos chunkMarker _ (by decide) (List.prefix_append _ _) (by simp [chunkMarker])]
    rw [List.drop_left]
    have hmc : ¬ chunkMarker <:+: savedPart k c :=
      marker_not_infix_savedPart k c (h c (List.mem_cons_self c cs))
    cases cs with
    | nil =>
      show [] :: splitPy chunkMarker (savedPart k c ++ saveFrom (k + 1) []) = _
      rw [show saveFrom (k + 1) [] = [] from rfl, List.append_nil]
      rw [splitPy_no_occurrence chunkMarker _ _ le_rfl hmc]
      simp
    | cons c' cs' =>
      rw [saveFrom_shape]
      rw [show savedPart k c ++ (chunkMarker ++ (savedPart (k + 1) c' ++ saveFrom (k + 2) cs'))
            = savedPart k c ++ chunkMarker ++ (savedPart (k + 1) c' ++ saveFrom (k + 2) cs')
          from by simp [List.append_assoc]]
      rw [splitPy_append chunkMarker (by decide) _ _
        (no_early_occurrence _ hmc (savedPart_getLast k c) (by decide))]
      have hrec := ih (k + 1) (fun x hx => h x (List.mem_cons_of_mem c hx))
      rw [saveFrom_shape] at hrec
      rw [splitPy_pos chunkMarker _ (by decide) (List.prefix_append _ _)
        (by simp [chunkMarker]), List.drop_left] at hrec
      have htail : splitPy chunkMarker (savedPart (k + 1) c' ++ saveFrom (k + 2) cs')
          = (List.enumFrom (k + 1) (c' :: cs')).map (fun ic => savedPart ic.1 ic.2) := by
        have := hrec
        exact (List.cons.injEq _ _ _ _ ▸ this).2
      rw [htail]
      simp [List.enumFrom_cons]

theorem filterMap_eq_map_of_some {α β : Type} {f : α → Option β} {g : α → β} :
    ∀ l : List α, (∀ a ∈ l, f a = some (g a)) → l.filterMap f = l.map g := by
  intro l
  induction l with
  | nil => intro _; rfl
  | cons a t ih =>
    intro hal
    rw [List.filterMap_cons, hal a (List.mem_cons_self a t), List.map_cons,
      ih (fun x hx => hal x (List.mem_cons_of_mem a hx))]


theorem parsePart_savedPart (k : Nat) (c : PyStr)
    (h1 : pyStrip c ≠ []) (h3 : ¬ sepLine <:+: c) :
    parsePart (savedPart k c) = some (pyStrip c) := by
  unfold parsePart
  simp only
  rw [parse_savedPart k c h1 h3, if_pos h1]

theorem filterMap_parseSaved (l : List (Nat × PyStr))
    (hpt : ∀ ic ∈ l, pyStrip ic.2 ≠ [] ∧ ¬ sepLine <:+: ic.2) :
    (l.map (fun ic => savedPart ic.1 ic.2)).filterMap parsePart
      = l.map (fun ic => pyStrip ic.2) := by
  induction l with
  | nil => rfl
  | cons a t ih =>
    rw [List.map_cons, List.filterMap_cons,
      parsePart_savedPart a.1 a.2 (hpt a (List.mem_cons_self a t)).1
        (hpt a (List.mem_cons_self a t)).2,
      List.map_cons, ih (fun x hx => hpt x (List.mem_cons_of_mem a hx))]

/-- Round-trip through the persistence format: saving well-behaved chunks and
parsing the file back yields exactly the stripped chunks, in order. -/
theorem load_save (chunks : List PyStr)
    (h : ∀ c ∈ chunks, pyStrip c ≠ [] ∧ ¬ chunkMarker <:+: c ∧ ¬ sepLine <:+: c) :
    load_processed_documents (save_processed_documents chunks) = chunks.map pyStrip := by
  rw [save_eq_saveFrom]
  unfold load_processed_documents
  rw [splitPy_saveFrom chunks 1 (fun c hc => (h c hc).2.1)]
  rw [show ([] :: (List.enumFrom 1 chunks).map (fun ic => savedPart ic.1 ic.2)).drop 1
        = (List.enumFrom 1 chunks).map (fun ic => savedPart ic.1 ic.2) from rfl]
  rw [filterMap_parseSaved _ ?hpt]
  case hpt =>
    intro ic hic
    have hmem : ic.2 ∈ chunks := by
      have h9 := List.enumFrom_map_snd 1 chunks
      rw [← h9]
      exact List.mem_map_of_mem Prod.snd hic
    exact ⟨(h ic.2 hmem).1, (h ic.2 hmem).2.2⟩
  rw [show ((List.enumFrom 1 chunks).map (fun ic : Nat × PyStr => pyStrip ic.2))
        = ((List.enumFrom 1 chunks).map Prod.snd).map pyStrip from by
      rw [List.map_map]; rfl]
  rw [List.enumFrom_map_snd]

/-! ### Facts about `simple_search` -/

theorem simple_search_eq (query : PyStr) (chunks : List PyStr) (max_results : Nat) :
    simple_search query chunks max_results =
      (List.insertionSort scoreGE (chunks.filterMap (fun chunk =>
        if 0 < ((wordSet query) ∩ (wordSet chunk)).card then
          some (chunk, (((wordSet query) ∩ (wordSet chunk)).card : ℚ) / ((wordSet query).card : ℚ))
        else none))).take max_results := rfl

theorem results_eq (query : PyStr) (chunks : List PyStr) :
    chunks.filterMap (fun chunk =>
        if 0 < ((wordSet query) ∩ (wordSet chunk)).card then
          some (chunk, (((wordSet query) ∩ (wordSet chunk)).card : ℚ) / ((wordSet query).card : ℚ))
        else none)
      = (chunks.filter (fun chunk =>
          decide (0 < ((wordSet query) ∩ (wordSet chunk)).card))).map
          (fun chunk =>
            (chunk, (((wordSet query) ∩ (wordSet chunk)).card : ℚ) / ((wordSet query).card : ℚ))) := by
  induction chunks with
  | nil => rfl
  | cons c cs ih =>
    rw [List.filterMap_cons, List.filter_cons]
    by_cases hc : 0 < ((wordSet query) ∩ (wordSet c)).card
    · rw [if_pos hc, if_pos (decide_eq_true hc), List.map_cons, ih]
    · rw [if_neg hc, if_neg (by simp [hc] : ¬ (decide (0 < ((wordSet query) ∩ (wordSet c)).card) = true)), ih]

theorem orderedInsert_decomp (x : PyStr × ℚ) (t : List (PyStr × ℚ)) :
    ∃ t₁ t₂, List.orderedInsert scoreGE x t = t₁ ++ x :: t₂ ∧ t = t₁ ++ t₂ ∧
      ∀ y ∈ t₁, ¬ scoreGE x y := by
  induction t with
  | nil => exact ⟨[], [], rfl, rfl, by simp⟩
  | cons b l ih =>
    by_cases h : scoreGE x b
    · exact ⟨[], b :: l, by simp [List.orderedInsert, h], rfl, by simp⟩
    · obtain ⟨t₁, t₂, h1, h2, h3⟩ := ih
      refine ⟨b :: t₁, t₂, ?_, ?_, ?_⟩
      · simp only [List.orderedInsert, if_neg h, h1, List.cons_append]
      · rw [List.cons_append, ← h2]
      · intro y hy
        rcases List.mem_cons.mp hy with rfl | hy
        · exact h
        · exact h3 y hy

theorem filter_score_insertionSort (s : ℚ) :
    ∀ l : List (PyStr × ℚ),
      (List.insertionSort scoreGE l).filter (fun x => decide (x.2 = s)) =
        l.filter (fun x => decide (x.2 = s)) := by
  intro l
  induction l with
  | nil => rfl
  | cons x l ih =>
    show (List.orderedInsert scoreGE x (List.insertionSort scoreGE l)).filter _ = _
    obtain ⟨t₁, t₂, h1, h2, h3⟩ := orderedInsert_decomp x (List.insertionSort scoreGE l)
    rw [h1, List.filter_append, List.filter_cons]
    by_cases hx : x.2 = s
    · have ht₁ : t₁.filter (fun x => decide (x.2 = s)) = [] := by
        rw [List.filter_eq_nil_iff]
        intro y hy
        have hlt : ¬ (y.2 ≤ x.2) := h3 y hy
        simp only [decide_eq_true_eq]
        intro hys
        exact hlt (le_of_eq (by rw [hys, hx]))
      have ht₂ : (List.insertionSort scoreGE l).filter (fun x => decide (x.2 = s))
          = t₂.filter (fun x => decide (x.2 = s)) := by
        rw [h2, List.filter_append, ht₁, List.nil_append]
      rw [if_pos (decide_eq_true hx), ht₁, List.nil_append]
      rw [← ht₂, ih, List.filter_cons, if_pos (decide_eq_true hx)]
    · have ht₂ : (List.insertionSort scoreGE l).filter (fun x => decide (x.2 = s))
          = t₁.filter (fun x => decide (x.2 = s)) ++ t₂.filter (fun x => decide (x.2 = s)) := by
        rw [h2, List.filter_append]
      rw [if_neg (by simp [hx] : ¬ (decide (x.2 = s) = true))]
      rw [← ht₂, ih, List.filter_cons, if_neg (by simp [hx] : ¬ (decide (x.2 = s) = true))]

theorem pair_sublist_of_filter {a b : PyStr × ℚ} {l : List (PyStr × ℚ)}
    (p : PyStr × ℚ → Bool) (h : [a, b].Sublist l) (ha : p a = true) (hb : p b = true) :
    [a, b].Sublist (l.filter p) := by
  have h2 := List.Sublist.filter p h
  rwa [show List.filter p [a, b] = [a, b] from by
    rw [List.filter_cons, List.filter_cons]
    simp [ha, hb]] at h2

/-! ### Facts about the chunker and the context formatter -/

theorem range'_add_map (a : Nat) : ∀ (m s step : Nat),
    List.range' (a + s) m step = (List.range' s m step).map (fun i => a + i) := by
  intro m
  induction m with
  | zero => intro s step; rfl
  | succ m ih =>
    intro s step
    rw [List.range'_succ, List.range'_succ, List.map_cons, ← ih (s + step) step,
      Nat.add_assoc]

theorem chunkWindows_join (C : Nat) (hC : 0 < C) :
    ∀ (n : Nat) (doc : PyStr), doc.length ≤ n → (chunkWindows doc C).flatten = doc := by
  intro n
  induction n with
  | zero =>
    intro doc hlen
    have hdoc : doc = [] := List.eq_nil_of_length_eq_zero (Nat.le_zero.mp hlen)
    subst hdoc
    unfold chunkWindows
    rw [show (([] : PyStr).length + C - 1) / C = 0 from Nat.div_eq_of_lt (by simp; omega)]
    rfl
  | succ n ih =>
    intro doc hlen
    by_cases hdoc : doc = []
    · subst hdoc
      unfold chunkWindows
      rw [show (([] : PyStr).length + C - 1) / C = 0 from Nat.div_eq_of_lt (by simp; omega)]
      rfl
    · have hpos : 0 < doc.length := List.length_pos.mpr hdoc
      have hk : (doc.length + C - 1) / C = ((doc.drop C).length + C - 1) / C + 1 := by
        rw [List.length_drop]
        rcases le_or_lt doc.length C with hle | hlt
        · have e1 : doc.length - C = 0 := by omega
          rw [e1, show (0 + C - 1) / C = 0 from Nat.div_eq_of_lt (by omega)]
          have e2 : doc.length + C - 1 = (doc.length - 1) + C := by omega
          rw [e2, Nat.add_div_right _ hC, Nat.div_eq_of_lt (by omega)]
        · have e2 : doc.length + C - 1 = (doc.length - 1 - C) + C + C := by omega
          have e3 : doc.length - C + C - 1 = (doc.length - 1 - C) + C := by omega
          rw [e2, e3, Nat.add_div_right _ hC, Nat.add_div_right _ hC]
      unfold chunkWindows
      rw [hk, List.range'_succ, List.map_cons, List.flatten_cons]
      have hshift := range'_add_map C (((doc.drop C).length + C - 1) / C) 0 C
      rw [show C + (0 : Nat) = C from rfl] at hshift
      rw [show (0 : Nat) + C = C from by omega, hshift, List.map_map]
      have hrest : (List.range' 0 (((doc.drop C).length + C - 1) / C) C).map
            ((fun i => (doc.drop i).take C) ∘ (fun i => C + i))
          = (List.range' 0 (((doc.drop C).length + C - 1) / C) C).map
            (fun i => ((doc.drop C).drop i).take C) := by
        apply List.map_congr_left
        intro i _
        show ((doc.drop (C + i)).take C) = (((doc.drop C).drop i).take C)
        rw [List.drop_drop]
      rw [hrest]
      have hrec : ((List.range' 0 (((doc.drop C).length + C - 1) / C) C).map
            (fun i => ((doc.drop C).drop i).take C)).flatten = doc.drop C := by
        have := ih (doc.drop C) (by rw [List.length_drop]; omega)
        unfold chunkWindows at this
        exact this
      rw [hrec]
      show (doc.drop 0).take C ++ doc.drop C = doc
      rw [List.drop_zero, List.take_append_drop]

theorem foldl_append_entries (L : List (Nat × (PyStr × ℚ))) :
    ∀ acc : PyStr,
      L.foldl (fun context ics => context ++ contextEntry ics.1 ics.2) acc
        = acc ++ (L.map (fun ics => contextEntry ics.1 ics.2)).flatten := by
  induction L with
  | nil => intro acc; simp
  | cons a t ih =>
    intro acc
    rw [List.foldl_cons, ih, List.map_cons, List.flatten_cons, List.append_assoc]

/-! ### The claims -/

/-- C1: every (chunk, score) pair returned by `simple_search` has a strictly
positive word overlap with the query, its score equals the overlap divided by
the number of unique query words, and the score is strictly positive — so no
chunk with zero word overlap ever appears in the output. -/
theorem C1_search_scores (query : PyStr) (chunks : List PyStr) (max_results : Nat) :
    ∀ p ∈ simple_search query chunks max_results,
      0 < ((wordSet query) ∩ (wordSet p.1)).card ∧
      p.2 = (((wordSet query) ∩ (wordSet p.1)).card : ℚ) / ((wordSet query).card : ℚ) ∧
      0 < p.2 := by
  intro p hp
  rw [simple_search_eq] at hp
  have hp2 := List.mem_of_mem_take hp
  have hp3 := (List.perm_insertionSort scoreGE _).subset hp2
  rw [List.mem_filterMap] at hp3
  obtain ⟨chunk, _, hfc⟩ := hp3
  by_cases hover : 0 < ((wordSet query) ∩ (wordSet chunk)).card
  · rw [if_pos hover] at hfc
    obtain rfl := Option.some.inj hfc
    refine ⟨hover, rfl, ?_⟩
    apply div_pos
    · exact_mod_cast hover
    · have hle : ((wordSet query) ∩ (wordSet chunk)).card ≤ (wordSet query).card :=
        Finset.card_le_card Finset.inter_subset_left
      exact_mod_cast lt_of_lt_of_le hover hle
  · rw [if_neg hover] at hfc
    exact absurd hfc (by simp)

/-- C4: the output of `simple_search` is sorted by non-increasing score, and
any two returned pairs with equal scores appear in the output in the same
relative order in which their chunks appear in the input list (stability of
the sort).  `[a, b].Sublist l` expresses that `a` occurs before `b` in `l`. -/
theorem C4_search_sorted_stable (query : PyStr) (chunks : List PyStr) (max_results : Nat) :
    List.Sorted scoreGE (simple_search query chunks max_results) ∧
    (∀ a b : PyStr × ℚ, [a, b].Sublist (simple_search query chunks max_results) →
      a.2 = b.2 → [a.1, b.1].Sublist chunks) := by
  constructor
  · rw [simple_search_eq]
    exact List.Pairwise.sublist (List.take_sublist _ _)
      (List.sorted_insertionSort scoreGE _)
  · intro a b hab he
    rw [simple_search_eq] at hab
    have h1 := hab.trans (List.take_sublist _ _)
    have h2 := pair_sublist_of_filter (fun x => decide (x.2 = a.2)) h1
      (by simp) (by simp [he.symm])
    rw [filter_score_insertionSort] at h2
    have h3 := h2.trans (List.filter_sublist _)
    rw [results_eq] at h3
    have h4 := h3.map Prod.fst
    rw [List.map_map] at h4
    simp only [List.map_cons, List.map_nil] at h4
    have h5 : List.map (Prod.fst ∘ fun chunk =>
        (chunk, (((wordSet query) ∩ (wordSet chunk)).card : ℚ) / ((wordSet query).card : ℚ)))
        (chunks.filter (fun chunk => decide (0 < ((wordSet query) ∩ (wordSet chunk)).card)))
        = chunks.filter (fun chunk => decide (0 < ((wordSet query) ∩ (wordSet chunk)).card)) := by
      have := List.map_congr_left (l := chunks.filter
        (fun chunk => decide (0 < ((wordSet query) ∩ (wordSet chunk)).card)))
        (f := Prod.fst ∘ fun chunk =>
          (chunk, (((wordSet query) ∩ (wordSet chunk)).card : ℚ) / ((wordSet query).card : ℚ)))
        (g := fun chunk => chunk) (fun x _ => rfl)
      rw [this, List.map_id']
    rw [h5] at h4
    exact h4.trans (List.filter_sublist _)

/-- C5: `simple_search` returns exactly
`min max_results (number of chunks with positive word overlap)` pairs. -/
theorem C5_result_count (query : PyStr) (chunks : List PyStr) (max_results : Nat) :
    (simple_search query chunks max_results).length =
      min max_results
        ((chunks.filter (fun chunk =>
          decide (0 < ((wordSet query) ∩ (wordSet chunk)).card))).length) := by
  rw [simple_search_eq, List.length_take]
  congr 1
  rw [(List.perm_insertionSort scoreGE _).length_eq, results_eq, List.length_map]

/-- C6: when the query tokenizes to the empty word set, no chunk can have
positive overlap, so `simple_search` returns the empty list for every chunk
list; in particular the score division is never performed. -/
theorem C6_empty_query (query : PyStr) (chunks : List PyStr) (max_results : Nat)
    (h : wordSet query = ∅) :
    simple_search query chunks max_results = [] := by
  rw [simple_search_eq]
  have hnil : chunks.filterMap (fun chunk =>
      if 0 < ((wordSet query) ∩ (wordSet chunk)).card then
        some (chunk, (((wordSet query) ∩ (wordSet chunk)).card : ℚ) / ((wordSet query).card : ℚ))
      else none) = [] := by
    rw [List.filterMap_eq_nil_iff]
    intro chunk _
    rw [h]
    simp
  rw [hnil]
  simp

/-- C7: for a positive chunk size, the candidate windows of the chunker are
the consecutive `C`-character slices of the document: the `i`-th window is
`doc[C*i : C*i + C]` and concatenating all windows restores the document
exactly, so the windows are non-overlapping and exhaustive. -/
theorem C7_windows_partition (doc : PyStr) (C : Nat) (hC : 0 < C) :
    (chunkWindows doc C).flatten = doc ∧
    ∀ i (h : i < (chunkWindows doc C).length),
      (chunkWindows doc C).get ⟨i, h⟩ = (doc.drop (C * i)).take C := by
  constructor
  · exact chunkWindows_join C hC doc.length doc le_rfl
  · intro i h
    simp only [chunkWindows, List.get_eq_getElem, List.getElem_map, List.getElem_range']
    rw [Nat.zero_add]

/-- C8: every chunk retained by `chunk_documents` has more than 50 characters
after stripping, and is itself one of the untouched candidate windows of one
of the input documents (the stripped text is only used for the test). -/
theorem C8_filtered_chunks (documents : List PyStr) (C : Nat) :
    ∀ ch ∈ chunk_documents documents C,
      50 < (pyStrip ch).length ∧ ∃ doc ∈ documents, ch ∈ chunkWindows doc C := by
  intro ch hch
  unfold chunk_documents at hch
  rw [List.mem_flatMap] at hch
  obtain ⟨doc, hdoc, hmem⟩ := hch
  rw [List.mem_filter] at hmem
  exact ⟨by simpa using hmem.2, doc, hdoc, hmem.1⟩

/-- C9: `format_context` returns the fixed "no relevant information" sentinel
exactly on the empty result list; on a non-empty list it returns the preamble
followed, for each result in order with 1-based rank, by a block consisting
of the rank-and-score header, the chunk truncated to 500 characters with a
`"..."` suffix exactly when it is longer than 500 characters, and a blank
line. -/
theorem C9_format_context (search_results : List (PyStr × ℚ)) :
    (search_results = [] → format_context search_results = noInfoStr) ∧
    (search_results ≠ [] → format_context search_results =
      contextPreamble ++
        ((search_results.enumFrom 1).map (fun ics => contextEntry ics.1 ics.2)).flatten) := by
  constructor
  · intro h
    rw [format_context, if_pos h]
  · intro h
    rw [format_context, if_neg h, foldl_append_entries]

/-- C10: every chunk produced by `load_processed_documents` is non-empty and
already stripped: it has no leading or trailing whitespace. -/
theorem C10_loaded_chunks_stripped (content : PyStr) :
    ∀ c ∈ load_processed_documents content, c ≠ [] ∧ pyStrip c = c := by
  intro c hc
  unfold load_processed_documents at hc
  rw [List.mem_filterMap] at hc
  obtain ⟨part, _, hpc⟩ := hc
  unfold parsePart at hpc
  simp only at hpc
  by_cases hne : pyStrip (replacePy sepLine []
      (pyStrip (List.intercalate ['\n'] ((splitPy ['\n'] part).drop 1)))) ≠ []
  · rw [if_pos hne] at hpc
    obtain rfl := Option.some.inj hpc
    exact ⟨hne, pyStrip_idem _⟩
  · rw [if_neg hne] at hpc
    exact absurd hpc (by simp)

/-- C2 (amended): saving chunks that are non-empty after stripping and do not
contain the `"=== CHUNK"` marker or the 50-`=` separator as substrings, and
then parsing the file back, yields exactly one chunk per saved chunk, equal
to the saved chunk with surrounding whitespace stripped. -/
theorem C2_round_trip (chunks : List PyStr)
    (h : ∀ c ∈ chunks, pyStrip c ≠ [] ∧ ¬ chunkMarker <:+: c ∧ ¬ sepLine <:+: c) :
    load_processed_documents (save_processed_documents chunks) = chunks.map pyStrip ∧
    (load_processed_documents (save_processed_documents chunks)).length = chunks.length := by
  have hls := load_save chunks h
  exact ⟨hls, by rw [hls, List.length_map]⟩

/-- C3 (amended): chunking the single 43-character document
`"The quick brown fox jumps over the lazy dog"` with chunk size 1000
produces no chunks at all: the only candidate window is the whole document,
but its stripped length 43 is not greater than 50, so the filter discards
it. -/
theorem C3_pangram_no_chunk :
    chunk_documents ["The quick brown fox jumps over the lazy dog".data] 1000 = [] := by
  decide

/-- C3 fails as stated: the document is not returned as a single chunk. -/
theorem C3_counterexample :
    chunk_documents ["The quick brown fox jumps over the lazy dog".data] 1000
      ≠ ["The quick brown fox jumps over the lazy dog".data] := by
  decide

/-- C2 fails as stated: a single whitespace-only chunk is saved but lost on
reload, so the round trip does not return the same number of chunks. -/
theorem C2_counterexample :
    (load_processed_documents (save_processed_documents [[' ']])).length
      ≠ ([[' ']] : List PyStr).length := by
  decide

theorem C2_witness :
    (∀ c ∈ [("hello world".data : PyStr)],
      pyStrip c ≠ [] ∧ ¬ chunkMarker <:+: c ∧ ¬ sepLine <:+: c) ∧
    load_processed_documents (save_processed_documents ["hello world".data])
      = ["hello world".data] := by
  have h : ∀ c ∈ [("hello world".data : PyStr)],
      pyStrip c ≠ [] ∧ ¬ chunkMarker <:+: c ∧ ¬ sepLine <:+: c := by decide
  refine ⟨h, ?_⟩
  rw [(C2_round_trip _ h).1]
  decide

theorem search_eval_brown_fox :
    simple_search "brown fox".data ["The quick brown fox jumps".data] 4
      = [("The quick brown fox jumps".data, (1 : ℚ))] := by
  rw [simple_search_eq, results_eq]
  rw [show List.filter (fun chunk =>
        decide (0 < (wordSet "brown fox".data ∩ wordSet chunk).card))
        ["The quick brown fox jumps".data] = ["The quick brown fox jumps".data] from by decide]
  rw [List.map_cons, List.map_nil]
  rw [show (wordSet "brown fox".data ∩ wordSet "The quick brown fox jumps".data).card = 2 from by decide]
  rw [show (wordSet "brown fox".data).card = 2 from by decide]
  rw [show ((2 : ℕ) : ℚ) / ((2 : ℕ) : ℚ) = 1 from by norm_num]
  rfl

theorem C1_witness :
    (("The quick brown fox jumps".data, (1 : ℚ)) ∈
        simple_search "brown fox".data ["The quick brown fox jumps".data] 4) ∧
    (0 < ((wordSet "brown fox".data) ∩
        (wordSet ("The quick brown fox jumps".data, (1 : ℚ)).1)).card ∧
     ("The quick brown fox jumps".data, (1 : ℚ)).2 =
       (((wordSet "brown fox".data) ∩
          (wordSet ("The quick brown fox jumps".data, (1 : ℚ)).1)).card : ℚ)
        / ((wordSet "brown fox".data).card : ℚ) ∧
     0 < ("The quick brown fox jumps".data, (1 : ℚ)).2) := by
  have hmem : ("The quick brown fox jumps".data, (1 : ℚ)) ∈
      simple_search "brown fox".data ["The quick brown fox jumps".data] 4 := by
    rw [search_eval_brown_fox]
    exact List.mem_singleton.mpr rfl
  exact ⟨hmem, C1_search_scores "brown fox".data ["The quick brown fox jumps".data] 4 _ hmem⟩

theorem search_eval_fox_pair :
    simple_search "fox".data ["fox a".data, "fox b".data] 4
      = [("fox a".data, (1 : ℚ)), ("fox b".data, (1 : ℚ))] := by
  rw [simple_search_eq, results_eq]
  rw [show List.filter (fun chunk =>
        decide (0 < (wordSet "fox".data ∩ wordSet chunk).card))
        ["fox a".data, "fox b".data] = ["fox a".data, "fox b".data] from by decide]
  rw [List.map_cons, List.map_cons, List.map_nil]
  rw [show (wordSet "fox".data ∩ wordSet "fox a".data).card = 1 from by decide]
  rw [show (wordSet "fox".data ∩ wordSet "fox b".data).card = 1 from by decide]
  rw [show (wordSet "fox".data).card = 1 from by decide]
  rw [show ((1 : ℕ) : ℚ) / ((1 : ℕ) : ℚ) = 1 from by norm_num]
  show (List.insertionSort scoreGE
    [("fox a".data, (1 : ℚ)), ("fox b".data, (1 : ℚ))]).take 4 = _
  rw [show List.insertionSort scoreGE
      [("fox a".data, (1 : ℚ)), ("fox b".data, (1 : ℚ))]
      = List.orderedInsert scoreGE ("fox a".data, (1 : ℚ)) [("fox b".data, (1 : ℚ))] from rfl]
  rw [List.orderedInsert,
    if_pos (show scoreGE ("fox a".data, (1 : ℚ)) ("fox b".data, (1 : ℚ)) from le_refl (1 : ℚ))]
  rfl

theorem C4_witness :
    ["fox a".data, "fox b".data].Sublist (["fox a".data, "fox b".data] : List PyStr) := by
  apply (C4_search_sorted_stable "fox".data ["fox a".data, "fox b".data] 4).2
    ("fox a".data, (1 : ℚ)) ("fox b".data, (1 : ℚ))
  · rw [search_eval_fox_pair]
  · rfl

theorem C6_witness :
    wordSet "   ".data = ∅ ∧ simple_search "   ".data ["hello world".data] 4 = [] := by
  have h : wordSet "   ".data = ∅ := by decide
  exact ⟨h, C6_empty_query "   ".data ["hello world".data] 4 h⟩

theorem C7_witness :
    0 < 3 ∧ (chunkWindows "abcdefg".data 3).flatten = "abcdefg".data :=
  ⟨by decide, (C7_windows_partition "abcdefg".data 3 (by decide)).1⟩

theorem C8_witness :
    ((List.replicate 60 'a' : PyStr) ∈ chunk_documents [List.replicate 60 'a'] 1000) ∧
    (50 < (pyStrip (List.replicate 60 'a')).length ∧
      ∃ doc ∈ [(List.replicate 60 'a' : PyStr)],
        List.replicate 60 'a' ∈ chunkWindows doc 1000) := by
  have hm : (List.replicate 60 'a' : PyStr) ∈ chunk_documents [List.replicate 60 'a'] 1000 := by
    decide
  exact ⟨hm, C8_filtered_chunks [List.replicate 60 'a'] 1000 _ hm⟩

theorem C9_witness :
    format_context [] = noInfoStr ∧
    format_context [("abc".data, (1 : ℚ) / 2)] =
      contextPreamble ++
        (([("abc".data, (1 : ℚ) / 2)].enumFrom 1).map
          (fun ics => contextEntry ics.1 ics.2)).flatten :=
  ⟨(C9_format_context []).1 rfl,
   (C9_format_context [("abc".data, (1 : ℚ) / 2)]).2 (List.cons_ne_nil _ _)⟩

theorem C10_witness :
    (("hi there".data : PyStr) ∈ load_processed_documents
      ("=== CHUNK 1 ===\nhi there\n\n".data ++ sepLine ++ "\n\n".data)) ∧
    ("hi there".data ≠ ([] : PyStr) ∧ pyStrip "hi there".data = "hi there".data) := by
  have hm : ("hi there".data : PyStr) ∈ load_processed_documents
      ("=== CHUNK 1 ===\nhi there\n\n".data ++ sepLine ++ "\n\n".data) := by decide
  exact ⟨hm, C10_loaded_chunks_stripped _ _ hm⟩
